import Mathlib

/-!
# Chord-diagram application: user model and chord diagram

A shallow embedding of `usermodel.cpp` (class `UserModel`) and of the state
declared for `ChordDiagram` in `chords.h`, followed by theorems about them.

Conventions of the embedding

* A `QString` is a Lean `String` (a sequence of Unicode scalar values, i.e. a
  well-formed UTF-16 string). `QString::length()` counts UTF-16 code units,
  which `qLength` computes.
* A `std::string` is a list of byte values (`List Nat`, each below 256).
* The table `registeredusers` is the list of its rows in insertion (rowid)
  order. `Email = :email` is the binary text comparison of SQLite. Opening the
  connection and executing a statement are taken to succeed, and the table
  carries no uniqueness constraint of its own.
* The resolver is a function from the queried name to the reply with which the
  lookup finishes; the nested event loop that waits for the `finished` signal is
  not modelled.
* 32-bit and 64-bit machine arithmetic is arithmetic on `Nat` with explicit
  reduction modulo `2 ^ 32` and `2 ^ 64`.
-/

namespace UserModel

/-! ## Strings -/

/-- The Qt string type, restricted to well-formed UTF-16 content. -/
abbrev QString := String

/-- Number of UTF-16 code units that encode one scalar value. -/
def utf16Units (c : Char) : Nat := if c.toNat < 0x10000 then 1 else 2

/-- The value of `QString::length()`: the number of UTF-16 code units. -/
def qLength (s : QString) : Nat := (s.toList.map utf16Units).sum

/-- UTF-8 encoding of one scalar value. -/
def utf8EncodeChar (c : Char) : List Nat :=
  let v := c.toNat
  if v ≤ 0x7f then [v]
  else if v ≤ 0x7ff then [0xc0 + v / 64, 0x80 + v % 64]
  else if v ≤ 0xffff then [0xe0 + v / 4096, 0x80 + v / 64 % 64, 0x80 + v % 64]
  else [0xf0 + v / 262144, 0x80 + v / 4096 % 64, 0x80 + v / 64 % 64, 0x80 + v % 64]

/-- The bytes of `QString::toUtf8()`. -/
def toUtf8 (s : QString) : List Nat := s.toList.flatMap utf8EncodeChar

/-- The bytes of `QString::toStdString()`, which converts through UTF-8. -/
def toStdString (s : QString) : List Nat := toUtf8 s

/-- The prefix `QString::fromUtf8("✗ ")` of every failure message. -/
def cross : QString := "✗ "

/-! ## SHA-256 (`QCryptographicHash::Sha256`) -/

/-- Rotate a 32-bit word right by `n` bits. -/
def rotr (x n : Nat) : Nat := ((x >>> n) ||| (x <<< (32 - n))) % 2 ^ 32

/-- The choice function of SHA-256 on 32-bit words. -/
def ch (x y z : Nat) : Nat := (x &&& y) ^^^ ((2 ^ 32 - 1 - x) &&& z)

/-- The majority function of SHA-256. -/
def maj (x y z : Nat) : Nat := (x &&& y) ^^^ (x &&& z) ^^^ (y &&& z)

/-- The function written as capital sigma 0 in FIPS 180-4. -/
def bigSigma0 (x : Nat) : Nat := rotr x 2 ^^^ rotr x 13 ^^^ rotr x 22

/-- The function written as capital sigma 1 in FIPS 180-4. -/
def bigSigma1 (x : Nat) : Nat := rotr x 6 ^^^ rotr x 11 ^^^ rotr x 25

/-- The function written as small sigma 0 in FIPS 180-4. -/
def smallSigma0 (x : Nat) : Nat := rotr x 7 ^^^ rotr x 18 ^^^ (x >>> 3)

/-- The function written as small sigma 1 in FIPS 180-4. -/
def smallSigma1 (x : Nat) : Nat := rotr x 17 ^^^ rotr x 19 ^^^ (x >>> 10)

/-- The 64 round constants. -/
def sha256K : List Nat := [
  0x428A2F98, 0x71374491, 0xB5C0FBCF, 0xE9B5DBA5,
  0x3956C25B, 0x59F111F1, 0x923F82A4, 0xAB1C5ED5,
  0xD807AA98, 0x12835B01, 0x243185BE, 0x550C7DC3,
  0x72BE5D74, 0x80DEB1FE, 0x9BDC06A7, 0xC19BF174,
  0xE49B69C1, 0xEFBE4786, 0x0FC19DC6, 0x240CA1CC,
  0x2DE92C6F, 0x4A7484AA, 0x5CB0A9DC, 0x76F988DA,
  0x983E5152, 0xA831C66D, 0xB00327C8, 0xBF597FC7,
  0xC6E00BF3, 0xD5A79147, 0x06CA6351, 0x14292967,
  0x27B70A85, 0x2E1B2138, 0x4D2C6DFC, 0x53380D13,
  0x650A7354, 0x766A0ABB, 0x81C2C92E, 0x92722C85,
  0xA2BFE8A1, 0xA81A664B, 0xC24B8B70, 0xC76C51A3,
  0xD192E819, 0xD6990624, 0xF40E3585, 0x106AA070,
  0x19A4C116, 0x1E376C08, 0x2748774C, 0x34B0BCB5,
  0x391C0CB3, 0x4ED8AA4A, 0x5B9CCA4F, 0x682E6FF3,
  0x748F82EE, 0x78A5636F, 0x84C87814, 0x8CC70208,
  0x90BEFFFA, 0xA4506CEB, 0xBEF9A3F7, 0xC67178F2]

/-- The eight 32-bit words of the running hash value. -/
structure Sha256State where
  a : Nat
  b : Nat
  c : Nat
  d : Nat
  e : Nat
  f : Nat
  g : Nat
  h : Nat
deriving DecidableEq, Repr

/-- The initial hash value. -/
def sha256Init : Sha256State :=
  ⟨0x6A09E667, 0xBB67AE85, 0x3C6EF372, 0xA54FF53A,
   0x510E527F, 0x9B05688C, 0x1F83D9AB, 0x5BE0CD19⟩

/-- Big-endian 32-bit words of a byte list, four bytes to a word. -/
def bytesToWords : List Nat → List Nat
  | b0 :: b1 :: b2 :: b3 :: rest =>
      (b0 * 2 ^ 24 + b1 * 2 ^ 16 + b2 * 2 ^ 8 + b3) :: bytesToWords rest
  | _ => []

/-- Extend a message schedule, kept newest word first, by `n` words. -/
def extendSchedule : Nat → List Nat → List Nat
  | 0, w => w
  | n + 1, w =>
      let x := (smallSigma1 (w.getD 1 0) + w.getD 6 0 + smallSigma0 (w.getD 14 0) + w.getD 15 0)
                 % 2 ^ 32
      extendSchedule n (x :: w)

/-- The 64-word message schedule of one 64-byte block. -/
def schedule (block : List Nat) : List Nat :=
  (extendSchedule 48 (bytesToWords block).reverse).reverse

/-- One round of the compression function, for round constant and schedule word `kw`. -/
def round (s : Sha256State) (kw : Nat × Nat) : Sha256State :=
  let t1 := (s.h + bigSigma1 s.e + ch s.e s.f s.g + kw.1 + kw.2) % 2 ^ 32
  let t2 := (bigSigma0 s.a + maj s.a s.b s.c) % 2 ^ 32
  ⟨(t1 + t2) % 2 ^ 32, s.a, s.b, s.c, (s.d + t1) % 2 ^ 32, s.e, s.f, s.g⟩

/-- The compression function: 64 rounds, then the word-wise sum with the input state. -/
def compress (s : Sha256State) (block : List Nat) : Sha256State :=
  let r := (sha256K.zip (schedule block)).foldl round s
  ⟨(s.a + r.a) % 2 ^ 32, (s.b + r.b) % 2 ^ 32, (s.c + r.c) % 2 ^ 32, (s.d + r.d) % 2 ^ 32,
   (s.e + r.e) % 2 ^ 32, (s.f + r.f) % 2 ^ 32, (s.g + r.g) % 2 ^ 32, (s.h + r.h) % 2 ^ 32⟩

/-- Big-endian bytes of a 64-bit quantity. -/
def be64 (n : Nat) : List Nat :=
  [(n >>> 56) % 256, (n >>> 48) % 256, (n >>> 40) % 256, (n >>> 32) % 256,
   (n >>> 24) % 256, (n >>> 16) % 256, (n >>> 8) % 256, n % 256]

/-- Message padding: a `0x80` byte, zero bytes up to 56 modulo 64, the bit length. -/
def pad (msg : List Nat) : List Nat :=
  msg ++ [0x80] ++ List.replicate ((119 - msg.length % 64) % 64) 0 ++ be64 (8 * msg.length)

/-- Absorb the padded message 64 bytes at a time; the first argument bounds the
number of blocks and is never exhausted when it is the length of the input. -/
def absorb : Nat → Sha256State → List Nat → Sha256State
  | 0, s, _ => s
  | n + 1, s, bytes =>
      match bytes with
      | [] => s
      | _ :: _ => absorb n (compress s (bytes.take 64)) (bytes.drop 64)

/-- Big-endian bytes of a 32-bit word. -/
def be32 (w : Nat) : List Nat :=
  [(w >>> 24) % 256, (w >>> 16) % 256, (w >>> 8) % 256, w % 256]

/-- The 32 digest bytes of a hash state. -/
def digestBytes (s : Sha256State) : List Nat :=
  be32 s.a ++ be32 s.b ++ be32 s.c ++ be32 s.d ++ be32 s.e ++ be32 s.f ++ be32 s.g ++ be32 s.h

/-- The hash state after the whole padded message. -/
def sha256State (msg : List Nat) : Sha256State :=
  absorb (pad msg).length sha256Init (pad msg)

/-- The value of `QCryptographicHash::hash(msg, QCryptographicHash::Sha256)`. -/
def sha256 (msg : List Nat) : List Nat := digestBytes (sha256State msg)

/-- One lowercase hexadecimal digit. -/
def hexDigit (n : Nat) : Char := "0123456789abcdef".toList.getD n '0'

/-- The value of `QByteArray::toHex()`, read as a `QString`. -/
def toHex (bytes : List Nat) : QString :=
  String.mk (bytes.flatMap fun b => [hexDigit (b / 16), hexDigit (b % 16)])

/-- Hashes user's password. -/
def hashPassword (password : QString) : QString :=
  let hash := sha256 (toUtf8 password)
  toHex hash

/-! ## The table `registeredusers` -/

/-- One row of `registeredusers(Email, Username, Password)`. -/
structure UserRow where
  email : QString
  username : QString
  password : QString
deriving DecidableEq, Repr

/-- The rows selected by `WHERE Email = :email`, in table order. -/
def whereEmail (registeredusers : List UserRow) (email : QString) : List UserRow :=
  registeredusers.filter fun row => row.email == email

/-- Add user to database: the `INSERT INTO registeredusers` statement appends a row
that holds the hashed password. No query precedes the insertion. -/
def addUser (registeredusers : List UserRow) (email username password : QString) :
    List UserRow :=
  let hashedPassword := hashPassword password
  registeredusers ++ [⟨email, username, hashedPassword⟩]

/-- Compares the stored digest of the first row selected by
`SELECT Password FROM registeredusers WHERE Email = :email` with the digest of
the password that was entered. -/
def verifyUser (registeredusers : List UserRow) (email password : QString) : QString :=
  match (whereEmail registeredusers email).map (fun row => row.password) with
  | storedHashedPassword :: _ =>
      if storedHashedPassword = hashPassword password then "Valid"
      else cross ++ "Incorrect password. Please check password"
  | [] => cross ++ "Email not found. Please check email address or register"

/-- Checks if email is unique: `SELECT 1 ... WHERE Email = :email LIMIT 1` has no row. -/
def isUniqueEmail (registeredusers : List UserRow) (email : QString) : Bool :=
  let rows := ((whereEmail registeredusers email).map fun _ => 1).take 1
  let next := !rows.isEmpty
  !next

/-- Checks if password is valid. -/
def isValidPassword (password : QString) : QString :=
  if qLength password < 8 then cross ++ "Password must be 8 characters minimum"
  else "Valid"

/-- Checks if username is valid. -/
def isValidUsername (username : QString) : QString :=
  if qLength username > 20 then cross ++ "Username must not exceed 20 characters"
  else "Valid"


/-! ## Regular expressions (`std::regex`, ECMAScript grammar)

Only the constructs of the pattern in `isValidEmail` are needed: bracket
expressions, literals, concatenation, `+` and `{2,}`. `regex_match` asks for a
match of the whole input, for which the anchors `^` and `$` at the two ends of
the pattern hold trivially. Matching is computed with Brzozowski derivatives;
`Regex.Matches` is the language that a pattern denotes. -/

/-- Abstract syntax of a pattern over bytes. -/
inductive Regex where
  | empty : Regex
  | eps : Regex
  | cls (ranges : List (Nat × Nat)) : Regex
  | seq (r s : Regex) : Regex
  | alt (r s : Regex) : Regex
  | star (r : Regex) : Regex
deriving Repr

/-- Membership of a byte in a bracket expression given by inclusive ranges. -/
def inClass (ranges : List (Nat × Nat)) (c : Nat) : Bool :=
  ranges.any fun p => p.1 ≤ c && c ≤ p.2

/-- A literal character. -/
def Regex.lit (c : Char) : Regex := Regex.cls [(c.toNat, c.toNat)]

/-- The quantifier `+`. -/
def Regex.plus (r : Regex) : Regex := Regex.seq r (Regex.star r)

/-- The quantifier `{n,}`. -/
def Regex.atLeast : Nat → Regex → Regex
  | 0, r => Regex.star r
  | n + 1, r => Regex.seq r (Regex.atLeast n r)

/-- Whether a pattern matches the empty input. -/
def Regex.nullable : Regex → Bool
  | Regex.empty => false
  | Regex.eps => true
  | Regex.cls _ => false
  | Regex.seq r s => r.nullable && s.nullable
  | Regex.alt r s => r.nullable || s.nullable
  | Regex.star _ => true

/-- The derivative of a pattern by one input byte. -/
def Regex.deriv : Regex → Nat → Regex
  | Regex.empty, _ => Regex.empty
  | Regex.eps, _ => Regex.empty
  | Regex.cls ranges, c => if inClass ranges c then Regex.eps else Regex.empty
  | Regex.seq r s, c =>
      if r.nullable then Regex.alt (Regex.seq (r.deriv c) s) (s.deriv c)
      else Regex.seq (r.deriv c) s
  | Regex.alt r s, c => Regex.alt (r.deriv c) (s.deriv c)
  | Regex.star r, c => Regex.seq (r.deriv c) (Regex.star r)

/-- The value of `std::regex_match(s, pattern)`. -/
def regex_match (s : List Nat) (pattern : Regex) : Bool :=
  (s.foldl Regex.deriv pattern).nullable

/-- The language of a pattern. -/
def Regex.Matches : Regex → List Nat → Prop
  | Regex.empty, _ => False
  | Regex.eps, x => x = []
  | Regex.cls ranges, x => ∃ c, x = [c] ∧ inClass ranges c = true
  | Regex.seq r s, x => ∃ u v, x = u ++ v ∧ r.Matches u ∧ s.Matches v
  | Regex.alt r s, x => r.Matches x ∨ s.Matches x
  | Regex.star r, x => ∃ L : List (List Nat), x = L.flatten ∧ ∀ y ∈ L, y ≠ [] ∧ r.Matches y

/-- The bracket expression `[a-zA-Z0-9._%+-]`. -/
def localClass : List (Nat × Nat) :=
  [('a'.toNat, 'z'.toNat), ('A'.toNat, 'Z'.toNat), ('0'.toNat, '9'.toNat), ('.'.toNat, '.'.toNat),
   ('_'.toNat, '_'.toNat), ('%'.toNat, '%'.toNat), ('+'.toNat, '+'.toNat), ('-'.toNat, '-'.toNat)]

/-- The bracket expression `[a-zA-Z0-9.-]`. -/
def domainClass : List (Nat × Nat) :=
  [('a'.toNat, 'z'.toNat), ('A'.toNat, 'Z'.toNat), ('0'.toNat, '9'.toNat), ('.'.toNat, '.'.toNat),
   ('-'.toNat, '-'.toNat)]

/-- The bracket expression `[a-zA-Z]`. -/
def alphaClass : List (Nat × Nat) := [('a'.toNat, 'z'.toNat), ('A'.toNat, 'Z'.toNat)]

/-- The pattern `^[a-zA-Z0-9._%+-]+@[a-zA-Z0-9.-]+\.[a-zA-Z]{2,}$`. -/
def emailPattern : Regex :=
  Regex.seq (Regex.plus (Regex.cls localClass))
    (Regex.seq (Regex.lit '@')
      (Regex.seq (Regex.plus (Regex.cls domainClass))
        (Regex.seq (Regex.lit '.') (Regex.atLeast 2 (Regex.cls alphaClass)))))

/-! ## `std::string` searching -/

/-- The constant `std::string::npos`, the largest value of a 64-bit `size_t`. -/
def npos : Nat := 2 ^ 64 - 1

/-- Search for `needle` in the suffix `s` of a string, where `i` is the index at
which the suffix starts. -/
def stdFindFrom (needle : List Nat) : List Nat → Nat → Nat
  | [], i => if needle.isPrefixOf [] then i else npos
  | c :: rest, i => if needle.isPrefixOf (c :: rest) then i else stdFindFrom needle rest (i + 1)

/-- The value of `s.find(needle)`: the index of the first occurrence, or `npos`. -/
def stdFind (s needle : List Nat) : Nat := stdFindFrom needle s 0

/-- The value of `s.substr(pos)`; `none` stands for the `std::out_of_range`
exception thrown when `pos` exceeds the size. -/
def stdSubstr (s : List Nat) (pos : Nat) : Option (List Nat) :=
  if pos > s.length then none else some (s.drop pos)

/-- The domain portion of an address, as the specification speaks of it: the
bytes after the first "@". The code computes it with `find` and `substr`. -/
def domainPart (s : List Nat) : List Nat :=
  (s.dropWhile fun b => b != '@'.toNat).drop 1

/-! ## The DNS lookup (`QDnsLookup`) -/

/-- The values of `QDnsLookup::Error`. -/
inductive DnsError where
  | NoError
  | ResolverError
  | OperationCancelledError
  | InvalidRequestError
  | InvalidReplyError
  | ServerFailureError
  | ServerRefusedError
  | NotFoundError
  | TimeoutError
deriving DecidableEq, Repr

/-- One MX record of a reply. -/
structure MailExchangeRecord where
  exchange : QString
  preference : Nat
deriving DecidableEq, Repr

/-- What a finished lookup reports through `error()` and `mailExchangeRecords()`. -/
structure DnsReply where
  error : DnsError
  mailExchangeRecords : List MailExchangeRecord
deriving DecidableEq, Repr

/-- The outcome of `isValidEmail`: the message returned, and the names for which
an MX lookup was started, in order. -/
structure EmailCheck where
  message : QString
  lookups : List (List Nat)
deriving DecidableEq, Repr

/-- Checks if email is valid. The resolver `dns` gives the reply of an MX lookup
for a name, the name being the bytes of `stdDomain`. The result is `none` when
`substr` throws. -/
def isValidEmail (registeredusers : List UserRow) (dns : List Nat → DnsReply)
    (email : QString) : Option EmailCheck :=
  let stdEmail := toStdString email
  if qLength email > 255 then
    some ⟨cross ++ "Email address exceeds limit (255 characters)", []⟩
  else
    let isMatch := regex_match stdEmail emailPattern
    if !isMatch then
      some ⟨cross ++ "Please enter a valid email address", []⟩
    else if !isUniqueEmail registeredusers email then
      some ⟨cross ++ "Email address already in use", []⟩
    else
      let it := stdFind stdEmail ['@'.toNat]
      match stdSubstr stdEmail ((it + 1) % 2 ^ 64) with
      | none => none
      | some stdDomain =>
          let reply := dns stdDomain
          let isValid := reply.error == DnsError.NoError && !reply.mailExchangeRecords.isEmpty
          if isValid then some ⟨"Valid", [stdDomain]⟩
          else some ⟨cross ++ "Invalid domain. Please check email address", [stdDomain]⟩

end UserModel

/-! ## The chord diagram

`chords.h` declares the state of `ChordDiagram` (`circlePositions`,
`placedCircles`) and the signatures of its member functions; their bodies are
not part of the sources at hand, so the operations below follow the
specification. Pointer positions are `QPointF` values in the program; here they
have integer coordinates, and distances are compared through their squares. -/

namespace ChordDiagram

/-- A position on the canvas. -/
structure QPointF where
  x : Int
  y : Int
deriving DecidableEq, Repr

/-- Modelled from the spec: the fixed part of a diagram, which the bodies missing
from `chords.h` compute. It holds the precomputed grid of valid marker positions
(`circlePositions`), the snap threshold, the bound on the number of markers, and
the string on which a position lies (`getStringNum`). It never changes during
the lifetime of a diagram. -/
structure Fretboard where
  circlePositions : List QPointF
  snapThreshold : Nat
  maxCircles : Nat
  getStringNum : QPointF → Nat

/-- The markers placed so far (`placedCircles`): position and circle number. -/
abbrev PlacedCircles := List (QPointF × Nat)

/-- Squared Euclidean distance of two positions. -/
def sqDist (p q : QPointF) : Int := (p.x - q.x) ^ 2 + (p.y - q.y) ^ 2

/-- Modelled from the spec: the body of the nearest-point search is missing; this
is the search over the grid for a point nearest to `pos`, the earliest one among
equally near points. -/
def nearest (pos : QPointF) : List QPointF → Option QPointF
  | [] => none
  | g :: gs =>
      match nearest pos gs with
      | none => some g
      | some best => if sqDist pos g ≤ sqDist pos best then some g else some best

/-- Modelled from the spec: the body of `snapToGrid` is missing. A point within the
snap threshold of a grid intersection resolves to the nearest intersection; any
other point is left where it is. -/
def snapToGrid (fb : Fretboard) (pos : QPointF) : QPointF :=
  match nearest pos fb.circlePositions with
  | none => pos
  | some g => if sqDist pos g ≤ (fb.snapThreshold : Int) ^ 2 then g else pos

/-- Modelled from the spec: the body of `onSameString` is missing. It tells whether
some placed marker lies on the string of `point`. -/
def onSameString (fb : Fretboard) (placed : PlacedCircles) (point : QPointF) : Bool :=
  placed.any fun m => fb.getStringNum m.1 == fb.getStringNum point

/-- Modelled from the spec: the body of `getNextCircleNum` is missing and the spec
does not say how the circle number is chosen; it is taken to be one more than the
number of markers placed. -/
def getNextCircleNum (placed : PlacedCircles) : Nat := placed.length + 1

/-- Modelled from the spec: the place operation of the missing mouse handlers. A
click creates a marker at the grid position to which the pointer snaps, unless
the pointer does not snap to the grid, the string already holds a marker, or
the limit on the number of markers is reached. -/
def place (fb : Fretboard) (placed : PlacedCircles) (pos : QPointF) : PlacedCircles :=
  let p := snapToGrid fb pos
  if fb.circlePositions.contains p && !onSameString fb placed p
      && decide (placed.length < fb.maxCircles) then
    placed ++ [(p, getNextCircleNum placed)]
  else placed

/-- Modelled from the spec: the delete operation of the missing mouse handlers. A
click removes the marker at the grid position to which the pointer snaps. -/
def delete (fb : Fretboard) (placed : PlacedCircles) (pos : QPointF) : PlacedCircles :=
  let p := snapToGrid fb pos
  placed.filter fun m => m.1 != p

/-- Modelled from the spec: the drag operation of the missing mouse handlers. The
marker grabbed at `pressPos` is moved to the grid position to which `releasePos`
snaps and keeps its circle number; when the release does not snap to the grid or
another marker holds that string, the marker stays where it was. -/
def drag (fb : Fretboard) (placed : PlacedCircles) (pressPos releasePos : QPointF) :
    PlacedCircles :=
  let grabbedCircle := snapToGrid fb pressPos
  match placed.find? fun m => m.1 == grabbedCircle with
  | none => placed
  | some m =>
      let others := placed.filter fun c => c.1 != grabbedCircle
      let p := snapToGrid fb releasePos
      if fb.circlePositions.contains p && !onSameString fb others p then others ++ [(p, m.2)]
      else placed

/-- Modelled from the spec: the states of a diagram that an editing session can
reach, starting without markers, through place, drag and delete. -/
inductive Reachable (fb : Fretboard) : PlacedCircles → Prop where
  | init : Reachable fb []
  | place (placed : PlacedCircles) (pos : QPointF) :
      Reachable fb placed → Reachable fb (place fb placed pos)
  | drag (placed : PlacedCircles) (pressPos releasePos : QPointF) :
      Reachable fb placed → Reachable fb (drag fb placed pressPos releasePos)
  | delete (placed : PlacedCircles) (pos : QPointF) :
      Reachable fb placed → Reachable fb (delete fb placed pos)

/-- A small fretboard for worked examples: two strings (the columns `x = 0` and
`x = 10`) and two frets (the rows `y = 0` and `y = 10`), snap threshold 3, at
most four markers. -/
def sampleFretboard : Fretboard :=
  ⟨[⟨0, 0⟩, ⟨0, 10⟩, ⟨10, 0⟩, ⟨10, 10⟩], 3, 4, fun p => p.x.toNat⟩

end ChordDiagram

/-! # Theorems -/

namespace UserModel

/-! ## Messages -/

theorem valid_ne_cross_append (msg : String) : ("Valid" : String) ≠ cross ++ msg := by
  intro h
  have h2 := congrArg String.data h
  simp [cross, String.data_append] at h2

theorem whereEmail_eq_nil_iff (users : List UserRow) (email : QString) :
    whereEmail users email = [] ↔ ∀ row ∈ users, row.email ≠ email := by
  simp [whereEmail, List.filter_eq_nil_iff]

theorem whereEmail_head_eq_find (users : List UserRow) (email : QString) :
    (whereEmail users email).head? = users.find? fun row => row.email == email := by
  induction users with
  | nil => rfl
  | cons r rs ih =>
    by_cases h : (r.email == email) = true
    · simp [whereEmail, List.filter_cons, List.find?_cons, h]
    · simp only [whereEmail, List.filter_cons, List.find?_cons, h] at ih ⊢
      simp [ih]

theorem whereEmail_append (users more : List UserRow) (email : QString) :
    whereEmail (users ++ more) email = whereEmail users email ++ whereEmail more email := by
  simp [whereEmail]

theorem isUniqueEmail_iff (users : List UserRow) (email : QString) :
    isUniqueEmail users email = true ↔ ∀ row ∈ users, row.email ≠ email := by
  rw [← whereEmail_eq_nil_iff]
  unfold isUniqueEmail
  cases whereEmail users email <;> simp

theorem verifyUser_of_find_none (users : List UserRow) (email password : QString)
    (h : (users.find? fun row => row.email == email) = none) :
    verifyUser users email password =
      cross ++ "Email not found. Please check email address or register" := by
  have h2 : whereEmail users email = [] := by
    have := whereEmail_head_eq_find users email
    rw [h] at this
    simpa using this
  simp [verifyUser, h2]

theorem verifyUser_of_find_some (users : List UserRow) (email password : QString) (row : UserRow)
    (h : (users.find? fun row => row.email == email) = some row) :
    verifyUser users email password =
      if row.password = hashPassword password then "Valid"
      else cross ++ "Incorrect password. Please check password" := by
  have h2 := whereEmail_head_eq_find users email
  rw [h] at h2
  unfold verifyUser
  cases hw : whereEmail users email with
  | nil => simp [hw] at h2
  | cons r rs =>
    simp only [hw, List.head?_cons, Option.some.injEq] at h2
    simp [h2]

/-- Claim C1: `verifyUser` returns one of three pairwise different strings; it
returns "Valid" exactly when a row has the email and the digest stored in the
first such row is the digest of the password, the incorrect-password message
exactly when there is such a row and the digests differ, and the
email-not-found message exactly when no row has the email. -/
theorem verifyUser_three_outcomes (users : List UserRow) (email password : QString) :
    (verifyUser users email password = "Valid"
      ∨ verifyUser users email password = cross ++ "Incorrect password. Please check password"
      ∨ verifyUser users email password
          = cross ++ "Email not found. Please check email address or register")
    ∧ ("Valid" ≠ cross ++ "Incorrect password. Please check password"
      ∧ "Valid" ≠ cross ++ "Email not found. Please check email address or register"
      ∧ cross ++ "Incorrect password. Please check password"
          ≠ cross ++ "Email not found. Please check email address or register")
    ∧ (verifyUser users email password = "Valid" ↔
        ∃ row, (users.find? fun r => r.email == email) = some row
          ∧ row.password = hashPassword password)
    ∧ (verifyUser users email password = cross ++ "Incorrect password. Please check password" ↔
        ∃ row, (users.find? fun r => r.email == email) = some row
          ∧ row.password ≠ hashPassword password)
    ∧ (verifyUser users email password
          = cross ++ "Email not found. Please check email address or register" ↔
        ∀ row ∈ users, row.email ≠ email) := by
  have d1 : ("Valid" : String) ≠ cross ++ "Incorrect password. Please check password" :=
    valid_ne_cross_append _
  have d2 : ("Valid" : String)
      ≠ cross ++ "Email not found. Please check email address or register" :=
    valid_ne_cross_append _
  have d3 : cross ++ "Incorrect password. Please check password"
      ≠ cross ++ "Email not found. Please check email address or register" := by decide
  have hnone : (users.find? fun r => r.email == email) = none ↔
      ∀ row ∈ users, row.email ≠ email := by simp
  cases hf : users.find? fun r => r.email == email with
  | none =>
    have hv := verifyUser_of_find_none users email password hf
    have hall := hnone.mp hf
    rw [hv]
    refine ⟨Or.inr (Or.inr rfl), ⟨d1, d2, d3⟩, ?_, ?_, ?_⟩
    · simp [d2.symm]
    · simp [d3.symm]
    · simp only [true_iff]; exact hall
  | some row =>
    have hv := verifyUser_of_find_some users email password row hf
    have hex : ¬ ∀ r ∈ users, r.email ≠ email := by
      rw [← hnone, hf]; simp
    rw [hv]
    by_cases hp : row.password = hashPassword password
    · rw [if_pos hp]
      refine ⟨Or.inl rfl, ⟨d1, d2, d3⟩, ?_, ?_, ?_⟩
      · simp [hp]
      · simp [d1, hp]
      · simp [d2, hex]
    · rw [if_neg hp]
      refine ⟨Or.inr (Or.inl rfl), ⟨d1, d2, d3⟩, ?_, ?_, ?_⟩
      · simp [d1.symm, hp]
      · simp [hp]
      · simp [d3, hex]

/-- Claim C2: `isValidPassword` returns "Valid" exactly when the password has at
least 8 characters (`QString::length`) and the message "Password must be 8
characters minimum" otherwise; "short" fails and "longenough1" is valid. -/
theorem isValidPassword_length_bound :
    (∀ password : QString,
      (isValidPassword password = "Valid" ↔ 8 ≤ qLength password)
      ∧ (isValidPassword password = cross ++ "Password must be 8 characters minimum" ↔
          qLength password < 8))
    ∧ isValidPassword "short" = cross ++ "Password must be 8 characters minimum"
    ∧ isValidPassword "short" ≠ "Valid"
    ∧ isValidPassword "longenough1" = "Valid" := by
  refine ⟨fun password => ?_, by decide, by decide, by decide⟩
  have d := valid_ne_cross_append "Password must be 8 characters minimum"
  unfold isValidPassword
  by_cases h : qLength password < 8
  · simp only [h, if_true]
    constructor
    · simp [d.symm]; omega
    · simp
  · simp only [h, if_false]
    constructor
    · simp; omega
    · simp [d, h]

/-- Claim C3: `isValidUsername` returns "Valid" exactly when the username has at
most 20 characters (`QString::length`) and the message "Username must not exceed
20 characters" otherwise; every name of 20 characters is valid and every name of
21 characters fails. -/
theorem isValidUsername_length_bound :
    (∀ username : QString,
      (isValidUsername username = "Valid" ↔ qLength username ≤ 20)
      ∧ (isValidUsername username = cross ++ "Username must not exceed 20 characters" ↔
          20 < qLength username))
    ∧ (∀ username : QString, qLength username = 20 → isValidUsername username = "Valid")
    ∧ (∀ username : QString, qLength username = 21 →
        isValidUsername username = cross ++ "Username must not exceed 20 characters"
        ∧ isValidUsername username ≠ "Valid") := by
  have d := valid_ne_cross_append "Username must not exceed 20 characters"
  refine ⟨fun username => ?_, fun username h => ?_, fun username h => ?_⟩
  · unfold isValidUsername
    by_cases h : qLength username > 20
    · simp only [h, if_true]
      constructor
      · simp [d.symm]; omega
      · simp
    · simp only [h, if_false]
      constructor
      · simp; omega
      · simp [d]
  · simp [isValidUsername, h]
  · simp [isValidUsername, h, d.symm]

end UserModel

namespace UserModel

/-! ## Registration and login -/

theorem whereEmail_addUser (users : List UserRow) (email username password : QString) :
    whereEmail (addUser users email username password) email
      = whereEmail users email ++ [⟨email, username, hashPassword password⟩] := by
  simp [addUser, whereEmail]

theorem verifyUser_append_of_mem (users more : List UserRow) (email password : QString)
    (h : ∃ row ∈ users, row.email = email) :
    verifyUser (users ++ more) email password = verifyUser users email password := by
  unfold verifyUser
  rw [whereEmail_append]
  cases hw : whereEmail users email with
  | nil =>
    obtain ⟨row, hmem, hrow⟩ := h
    exact absurd hrow ((whereEmail_eq_nil_iff users email).mp hw row hmem)
  | cons r rs => rfl

/-- Claim C9: registration followed by login round-trips. When no row has email
`e`, after `addUser e u p` the call `verifyUser e p` returns "Valid" and
`isUniqueEmail e` returns false. `addUser` always appends the new row, without a
duplicate check: when `e` is already registered there is one more row with that
email afterwards, and `verifyUser e` answers for every password as it did before
the insertion, the first matching row deciding. In the table with one row for
"a@b.co" and password "first", registering "a@b.co" again with "second" leaves
"second" rejected and "first" accepted. -/
theorem addUser_verifyUser_roundtrip (users : List UserRow) (e u p : QString) :
    ((∀ row ∈ users, row.email ≠ e) →
        verifyUser (addUser users e u p) e p = "Valid"
        ∧ isUniqueEmail (addUser users e u p) e = false)
    ∧ addUser users e u p = users ++ [⟨e, u, hashPassword p⟩]
    ∧ ((∃ row ∈ users, row.email = e) →
        (whereEmail (addUser users e u p) e).length = (whereEmail users e).length + 1
        ∧ 2 ≤ (whereEmail (addUser users e u p) e).length
        ∧ ∀ q : QString, verifyUser (addUser users e u p) e q = verifyUser users e q)
    ∧ verifyUser (addUser (addUser [] "a@b.co" "x" "first") "a@b.co" "y" "second")
          "a@b.co" "second" = cross ++ "Incorrect password. Please check password"
    ∧ verifyUser (addUser (addUser [] "a@b.co" "x" "first") "a@b.co" "y" "second")
          "a@b.co" "first" = "Valid" := by
  refine ⟨fun hnew => ?_, rfl, fun hold => ?_, by decide, by decide⟩
  · have hw := (whereEmail_eq_nil_iff users e).mpr hnew
    constructor
    · simp [verifyUser, whereEmail_addUser, hw]
    · simp [isUniqueEmail, whereEmail_addUser, hw]
  · refine ⟨by simp [whereEmail_addUser], ?_, fun q => verifyUser_append_of_mem users _ e q hold⟩
    have hne : whereEmail users e ≠ [] := by
      intro hw
      obtain ⟨row, hmem, hrow⟩ := hold
      exact absurd hrow ((whereEmail_eq_nil_iff users e).mp hw row hmem)
    have hpos : 0 < (whereEmail users e).length := List.length_pos.mpr hne
    simp only [whereEmail_addUser, List.length_append, List.length_singleton]
    omega

end UserModel

namespace UserModel

/-! ## The password digest -/

theorem absorb_bounded (n : Nat) (s : Sha256State) (bytes : List Nat)
    (hs : s.a < 2 ^ 32 ∧ s.b < 2 ^ 32 ∧ s.c < 2 ^ 32 ∧ s.d < 2 ^ 32
      ∧ s.e < 2 ^ 32 ∧ s.f < 2 ^ 32 ∧ s.g < 2 ^ 32 ∧ s.h < 2 ^ 32) :
    (absorb n s bytes).a < 2 ^ 32 ∧ (absorb n s bytes).b < 2 ^ 32
      ∧ (absorb n s bytes).c < 2 ^ 32 ∧ (absorb n s bytes).d < 2 ^ 32
      ∧ (absorb n s bytes).e < 2 ^ 32 ∧ (absorb n s bytes).f < 2 ^ 32
      ∧ (absorb n s bytes).g < 2 ^ 32 ∧ (absorb n s bytes).h < 2 ^ 32 := by
  induction n generalizing s bytes with
  | zero => exact hs
  | succ n ih =>
    cases bytes with
    | nil => exact hs
    | cons b rest =>
      simp only [absorb]
      apply ih
      have hpos : 0 < 2 ^ 32 := by norm_num
      simp only [compress]
      exact ⟨Nat.mod_lt _ hpos, Nat.mod_lt _ hpos, Nat.mod_lt _ hpos, Nat.mod_lt _ hpos,
        Nat.mod_lt _ hpos, Nat.mod_lt _ hpos, Nat.mod_lt _ hpos, Nat.mod_lt _ hpos⟩

theorem sha256State_bounded (msg : List Nat) :
    (sha256State msg).a < 2 ^ 32 ∧ (sha256State msg).b < 2 ^ 32
      ∧ (sha256State msg).c < 2 ^ 32 ∧ (sha256State msg).d < 2 ^ 32
      ∧ (sha256State msg).e < 2 ^ 32 ∧ (sha256State msg).f < 2 ^ 32
      ∧ (sha256State msg).g < 2 ^ 32 ∧ (sha256State msg).h < 2 ^ 32 :=
  absorb_bounded _ _ _ (by decide)

/-- Two passwords with the same digest exist: the digests range over the finitely
many hash states of eight 32-bit words. -/
theorem hashPassword_collision_exists :
    ∃ p q : QString, p ≠ q ∧ hashPassword p = hashPassword q := by
  let word : Nat → Fin (2 ^ 32) := fun n => ⟨n % 2 ^ 32, Nat.mod_lt _ (by norm_num)⟩
  let key : QString → Fin (2 ^ 32) × Fin (2 ^ 32) × Fin (2 ^ 32) × Fin (2 ^ 32)
      × Fin (2 ^ 32) × Fin (2 ^ 32) × Fin (2 ^ 32) × Fin (2 ^ 32) := fun p =>
    let s := sha256State (toUtf8 p)
    (word s.a, word s.b, word s.c, word s.d, word s.e, word s.f, word s.g, word s.h)
  obtain ⟨p, q, hne, hkey⟩ := Finite.exists_ne_map_eq_of_infinite key
  refine ⟨p, q, hne, ?_⟩
  obtain ⟨pa, pb, pc, pd, pe, pf, pg, ph⟩ := sha256State_bounded (toUtf8 p)
  obtain ⟨qa, qb, qc, qd, qe, qf, qg, qh⟩ := sha256State_bounded (toUtf8 q)
  simp only [key, word, Prod.mk.injEq, Fin.mk.injEq] at hkey
  obtain ⟨ha, hb, hc, hd, he, hf, hg, hh⟩ := hkey
  rw [Nat.mod_eq_of_lt pa, Nat.mod_eq_of_lt qa] at ha
  rw [Nat.mod_eq_of_lt pb, Nat.mod_eq_of_lt qb] at hb
  rw [Nat.mod_eq_of_lt pc, Nat.mod_eq_of_lt qc] at hc
  rw [Nat.mod_eq_of_lt pd, Nat.mod_eq_of_lt qd] at hd
  rw [Nat.mod_eq_of_lt pe, Nat.mod_eq_of_lt qe] at he
  rw [Nat.mod_eq_of_lt pf, Nat.mod_eq_of_lt qf] at hf
  rw [Nat.mod_eq_of_lt pg, Nat.mod_eq_of_lt qg] at hg
  rw [Nat.mod_eq_of_lt ph, Nat.mod_eq_of_lt qh] at hh
  have hstate : sha256State (toUtf8 p) = sha256State (toUtf8 q) := by
    cases hp : sha256State (toUtf8 p)
    cases hq : sha256State (toUtf8 q)
    simp only [hp, hq] at ha hb hc hd he hf hg hh
    simp [ha, hb, hc, hd, he, hf, hg, hh]
  simp only [hashPassword, sha256, hstate]

theorem hexDigit_mem (n : Nat) : hexDigit n ∈ "0123456789abcdef".toList := by
  unfold hexDigit
  by_cases h : n < 16
  · interval_cases n <;> decide
  · have : ("0123456789abcdef".toList).length ≤ n := by
      have : ("0123456789abcdef".toList).length = 16 := by decide
      omega
    rw [List.getD_eq_default _ _ this]
    decide

theorem toHex_length (bytes : List Nat) : (toHex bytes).length = 2 * bytes.length := by
  unfold toHex
  simp only [String.length]
  induction bytes with
  | nil => rfl
  | cons b bs ih => simp only [List.flatMap_cons, List.length_append, ih, List.length_cons,
      List.length_nil]; omega

theorem toHex_chars (bytes : List Nat) :
    ∀ c ∈ (toHex bytes).toList, c ∈ "0123456789abcdef".toList := by
  intro c hc
  simp only [toHex, String.toList, List.mem_flatMap, List.mem_cons, List.mem_singleton,
    List.mem_nil_iff, or_false] at hc
  obtain ⟨b, -, h | h⟩ := hc
  · rw [h]; exact hexDigit_mem _
  · rw [h]; exact hexDigit_mem _

set_option maxRecDepth 100000 in
/-- Known answers: the digests of "abc", of the empty message and of the 56-byte
message of FIPS 180-4, and the digest of a password with two-, three- and
four-byte UTF-8 sequences. -/
theorem hashPassword_known_answers :
    hashPassword "abc" = "ba7816bf8f01cfea414140de5dae2223b00361a396177a9cb410ff61f20015ad"
    ∧ hashPassword "" = "e3b0c44298fc1c149afbf4c8996fb92427ae41e4649b934ca495991b7852b855"
    ∧ hashPassword "abcdbcdecdefdefgefghfghighijhijkijkljklmklmnlmnomnopnopq"
        = "248d6a61d20638b8e5c026930c3e6039a33ce45964ff2167f6ecedd419db06c1"
    ∧ hashPassword "héllo wörld ✗ 𝒜"
        = "630d6db530b49dbcc819b7dd776b69fcfb36a34d3eda4bff698644c62b3de065" := by
  refine ⟨by decide, by decide, by decide, by decide⟩

/-- Claim C7, as stated, fails: `hashPassword` does not send different passwords
to different digests. -/
theorem hashPassword_not_collision_free :
    ¬ (∀ p q : QString,
        (p = q → hashPassword p = hashPassword q) ∧ (p ≠ q → hashPassword p ≠ hashPassword q)) := by
  intro h
  obtain ⟨p, q, hne, heq⟩ := hashPassword_collision_exists
  exact (h p q).2 hne heq

/-- Claim C7, amended: `hashPassword` is deterministic, its value is the SHA-256
digest of the UTF-8 bytes of the password written as 64 lowercase hexadecimal
digits (checked on the digests of "abc", of the empty password, of a password
that fills two blocks and of one with characters outside ASCII), and there are
two different passwords with the same digest. -/
theorem hashPassword_deterministic_hex_digest :
    (∀ p q : QString, p = q → hashPassword p = hashPassword q)
    ∧ (∀ p : QString, hashPassword p = toHex (sha256 (toUtf8 p))
        ∧ (hashPassword p).length = 64
        ∧ ∀ c ∈ (hashPassword p).toList, c ∈ "0123456789abcdef".toList)
    ∧ hashPassword "abc" = "ba7816bf8f01cfea414140de5dae2223b00361a396177a9cb410ff61f20015ad"
    ∧ hashPassword "" = "e3b0c44298fc1c149afbf4c8996fb92427ae41e4649b934ca495991b7852b855"
    ∧ hashPassword "abcdbcdecdefdefgefghfghighijhijkijkljklmklmnlmnomnopnopq"
        = "248d6a61d20638b8e5c026930c3e6039a33ce45964ff2167f6ecedd419db06c1"
    ∧ hashPassword "héllo wörld ✗ 𝒜"
        = "630d6db530b49dbcc819b7dd776b69fcfb36a34d3eda4bff698644c62b3de065"
    ∧ ∃ p q : QString, p ≠ q ∧ hashPassword p = hashPassword q := by
  refine ⟨fun p q h => by rw [h], fun p => ⟨rfl, ?_, toHex_chars _⟩,
    hashPassword_known_answers.1, hashPassword_known_answers.2.1,
    hashPassword_known_answers.2.2.1, hashPassword_known_answers.2.2.2,
    hashPassword_collision_exists⟩
  simp only [hashPassword, toHex_length, sha256, digestBytes, be32, List.length_append,
    List.length_cons, List.length_nil]

end UserModel

namespace UserModel

/-! ## Correctness of derivative matching -/

theorem Regex.nullable_iff (r : Regex) : r.nullable = true ↔ r.Matches [] := by
  induction r with
  | empty => simp [Regex.nullable, Regex.Matches]
  | eps => simp [Regex.nullable, Regex.Matches]
  | cls ranges => simp [Regex.nullable, Regex.Matches]
  | seq r s ihr ihs =>
    simp only [Regex.nullable, Regex.Matches, Bool.and_eq_true, ihr, ihs]
    constructor
    · rintro ⟨hr, hs⟩
      exact ⟨[], [], rfl, hr, hs⟩
    · rintro ⟨u, v, huv, hr, hs⟩
      have hu : u = [] := by
        cases u with
        | nil => rfl
        | cons a t => simp at huv
      have hv : v = [] := by
        cases v with
        | nil => rfl
        | cons a t => simp at huv
      subst hu; subst hv
      exact ⟨hr, hs⟩
  | alt r s ihr ihs => simp only [Regex.nullable, Regex.Matches, Bool.or_eq_true, ihr, ihs]
  | star r _ =>
    simp only [Regex.nullable, Regex.Matches, true_iff]
    exact ⟨[], rfl, by simp⟩

theorem Regex.deriv_iff (r : Regex) (c : Nat) (x : List Nat) :
    (r.deriv c).Matches x ↔ r.Matches (c :: x) := by
  induction r generalizing x with
  | empty => simp [Regex.deriv, Regex.Matches]
  | eps => simp [Regex.deriv, Regex.Matches]
  | cls ranges =>
    simp only [Regex.deriv, Regex.Matches]
    by_cases h : inClass ranges c = true
    · simp only [h, if_true, Regex.Matches]
      constructor
      · rintro rfl
        exact ⟨c, rfl, h⟩
      · rintro ⟨c', hc, -⟩
        simp at hc
        exact hc.2
    · simp only [h, Regex.Matches, false_iff]
      rintro ⟨c', hc, hin⟩
      simp only [List.cons.injEq] at hc
      rw [← hc.1] at hin
      exact h hin
  | seq r s ihr ihs =>
    have key : (Regex.seq r s).Matches (c :: x) ↔
        (Regex.seq (r.deriv c) s).Matches x ∨ (r.nullable = true ∧ (s.deriv c).Matches x) := by
      simp only [Regex.Matches, ihr, ihs, Regex.nullable_iff]
      constructor
      · rintro ⟨u, v, huv, hr, hs⟩
        cases u with
        | nil =>
          simp only [List.nil_append] at huv
          subst huv
          exact Or.inr ⟨hr, hs⟩
        | cons a t =>
          simp only [List.cons_append, List.cons.injEq] at huv
          obtain ⟨rfl, rfl⟩ := huv
          exact Or.inl ⟨t, v, rfl, hr, hs⟩
      · rintro (⟨u, v, huv, hr, hs⟩ | ⟨hr, hs⟩)
        · exact ⟨c :: u, v, by simp [huv], hr, hs⟩
        · exact ⟨[], c :: x, rfl, hr, hs⟩
    rw [key]
    simp only [Regex.deriv]
    by_cases hn : r.nullable = true
    · simp only [hn, if_true, true_and]
      rfl
    · simp only [hn, if_false, false_and, or_false]
      simp
  | alt r s ihr ihs => simp only [Regex.deriv, Regex.Matches, ihr, ihs]
  | star r ih =>
    simp only [Regex.deriv, Regex.Matches, ih]
    constructor
    · rintro ⟨u, v, huv, hr, L, hL, hall⟩
      refine ⟨(c :: u) :: L, by simp [huv, hL], ?_⟩
      intro y hy
      rcases List.mem_cons.mp hy with rfl | hy
      · exact ⟨by simp, hr⟩
      · exact hall y hy
    · rintro ⟨L, hL, hall⟩
      cases L with
      | nil => simp at hL
      | cons y L =>
        obtain ⟨hne, hy⟩ := hall y (List.mem_cons_self _ _)
        cases y with
        | nil => exact absurd rfl hne
        | cons a t =>
          simp only [List.flatten_cons, List.cons_append, List.cons.injEq] at hL
          obtain ⟨rfl, rfl⟩ := hL
          exact ⟨t, L.flatten, rfl, hy, L, rfl, fun z hz => hall z (List.mem_cons_of_mem _ hz)⟩

/-- Derivative matching decides membership in the language of the pattern. -/
theorem regex_match_iff (s : List Nat) (r : Regex) : regex_match s r = true ↔ r.Matches s := by
  unfold regex_match
  induction s generalizing r with
  | nil => exact Regex.nullable_iff r
  | cons c t ih => rw [List.foldl_cons, ih, Regex.deriv_iff]

end UserModel

namespace UserModel

/-! ## The language of the email pattern -/

theorem star_cls_matches (ranges : List (Nat × Nat)) (x : List Nat) :
    (Regex.star (Regex.cls ranges)).Matches x ↔ ∀ b ∈ x, inClass ranges b = true := by
  simp only [Regex.Matches]
  constructor
  · rintro ⟨L, rfl, hall⟩ b hb
    obtain ⟨y, hy, hby⟩ := List.mem_flatten.mp hb
    obtain ⟨-, c, rfl, hc⟩ := hall y hy
    rw [List.mem_singleton.mp hby]
    exact hc
  · intro h
    refine ⟨x.map fun b => [b], ?_, ?_⟩
    · clear h
      induction x with
      | nil => rfl
      | cons a t ih => simp [← ih]
    · intro y hy
      obtain ⟨b, hb, rfl⟩ := List.mem_map.mp hy
      exact ⟨by simp, b, rfl, h b hb⟩

theorem plus_cls_matches (ranges : List (Nat × Nat)) (x : List Nat) :
    (Regex.plus (Regex.cls ranges)).Matches x ↔ x ≠ [] ∧ ∀ b ∈ x, inClass ranges b = true := by
  unfold Regex.plus
  simp only [Regex.Matches.eq_4, star_cls_matches]
  simp only [Regex.Matches]
  constructor
  · rintro ⟨u, v, rfl, ⟨c, rfl, hc⟩, hv⟩
    refine ⟨by simp, ?_⟩
    intro b hb
    rcases List.mem_append.mp hb with h | h
    · rw [List.mem_singleton.mp h]; exact hc
    · exact hv b h
  · rintro ⟨hne, hall⟩
    cases x with
    | nil => exact absurd rfl hne
    | cons a t =>
      exact ⟨[a], t, rfl, ⟨a, rfl, hall a (List.mem_cons_self _ _)⟩,
        fun b hb => hall b (List.mem_cons_of_mem _ hb)⟩

theorem atLeast_two_cls_matches (ranges : List (Nat × Nat)) (x : List Nat) :
    (Regex.atLeast 2 (Regex.cls ranges)).Matches x ↔
      2 ≤ x.length ∧ ∀ b ∈ x, inClass ranges b = true := by
  simp only [Regex.atLeast, Regex.Matches.eq_4, star_cls_matches]
  simp only [Regex.Matches]
  constructor
  · rintro ⟨u, v, rfl, ⟨c, rfl, hc⟩, u', v', rfl, ⟨c', rfl, hc'⟩, hv⟩
    refine ⟨by simp, ?_⟩
    intro b hb
    simp only [List.singleton_append, List.mem_cons] at hb
    rcases hb with rfl | rfl | h
    · exact hc
    · exact hc'
    · exact hv b h
  · rintro ⟨hlen, hall⟩
    match x, hlen, hall with
    | a :: b :: t, _, hall =>
      exact ⟨[a], b :: t, rfl, ⟨a, rfl, hall a (by simp)⟩, [b], t, rfl,
        ⟨b, rfl, hall b (by simp)⟩, fun z hz => hall z (by simp [hz])⟩

theorem lit_matches (c : Char) (x : List Nat) : (Regex.lit c).Matches x ↔ x = [c.toNat] := by
  simp only [Regex.lit, Regex.Matches, inClass, List.any_cons, List.any_nil, Bool.or_false,
    Bool.and_eq_true, decide_eq_true_eq]
  constructor
  · rintro ⟨b, rfl, h1, h2⟩
    rw [Nat.le_antisymm h2 h1]
  · rintro rfl
    exact ⟨c.toNat, rfl, le_refl _, le_refl _⟩

/-- A byte string passes the format check exactly when it is a non-empty local
part over `[a-zA-Z0-9._%+-]`, an "@", a non-empty run over `[a-zA-Z0-9.-]`, a dot,
and at least two letters. -/
theorem emailPattern_match_iff (s : List Nat) :
    regex_match s emailPattern = true ↔
      ∃ l d t : List Nat, s = l ++ '@'.toNat :: (d ++ '.'.toNat :: t)
        ∧ (l ≠ [] ∧ ∀ b ∈ l, inClass localClass b = true)
        ∧ (d ≠ [] ∧ ∀ b ∈ d, inClass domainClass b = true)
        ∧ (2 ≤ t.length ∧ ∀ b ∈ t, inClass alphaClass b = true) := by
  rw [regex_match_iff]
  unfold emailPattern
  simp only [Regex.Matches.eq_4, plus_cls_matches, lit_matches, atLeast_two_cls_matches]
  constructor
  · rintro ⟨l, r1, rfl, hl, a, r2, rfl, rfl, d, r3, rfl, hd, p, t, rfl, rfl, ht⟩
    exact ⟨l, d, t, by simp, hl, hd, ht⟩
  · rintro ⟨l, d, t, rfl, hl, hd, ht⟩
    exact ⟨l, _, rfl, hl, ['@'.toNat], _, rfl, rfl, d, _, rfl, hd, ['.'.toNat], t, rfl, rfl, ht⟩

end UserModel

namespace UserModel

/-! ## Domain extraction -/

theorem utf8EncodeChar_length_le (c : Char) : (utf8EncodeChar c).length ≤ 4 * utf16Units c := by
  unfold utf8EncodeChar utf16Units
  simp only
  split_ifs <;> simp

theorem toStdString_length_le (s : QString) : (toStdString s).length ≤ 4 * qLength s := by
  unfold toStdString toUtf8 qLength
  induction s.toList with
  | nil => simp
  | cons c cs ih =>
    have := utf8EncodeChar_length_le c
    simp only [List.flatMap_cons, List.length_append, List.map_cons, List.sum_cons]
    omega

theorem isPrefixOf_singleton_cons (a b : Nat) (t : List Nat) :
    [a].isPrefixOf (b :: t) = (a == b) := by
  simp [List.isPrefixOf]

theorem stdFindFrom_first (a : Nat) (l r : List Nat) (i : Nat) (h : a ∉ l) :
    stdFindFrom [a] (l ++ a :: r) i = i + l.length := by
  induction l generalizing i with
  | nil => simp [stdFindFrom, isPrefixOf_singleton_cons]
  | cons b t ih =>
    have hb : a ≠ b := fun hab => h (hab ▸ List.mem_cons_self _ _)
    have ht : a ∉ t := fun hat => h (List.mem_cons_of_mem _ hat)
    rw [List.cons_append, stdFindFrom, isPrefixOf_singleton_cons, if_neg (by simpa using hb),
      ih _ ht, List.length_cons]
    omega

theorem stdFindFrom_absent (a : Nat) (s : List Nat) (i : Nat) (h : a ∉ s) :
    stdFindFrom [a] s i = npos := by
  induction s generalizing i with
  | nil => simp [stdFindFrom, List.isPrefixOf]
  | cons b t ih =>
    have hb : a ≠ b := fun hab => h (hab ▸ List.mem_cons_self _ _)
    have ht : a ∉ t := fun hat => h (List.mem_cons_of_mem _ hat)
    rw [stdFindFrom, isPrefixOf_singleton_cons, if_neg (by simpa using hb), ih _ ht]

theorem domainPart_first (l r : List Nat) (h : '@'.toNat ∉ l) :
    domainPart (l ++ '@'.toNat :: r) = r := by
  unfold domainPart
  induction l with
  | nil => simp [List.dropWhile]
  | cons b t ih =>
    have hb : b ≠ '@'.toNat := fun hab => h (hab ▸ List.mem_cons_self _ _)
    have ht : '@'.toNat ∉ t := fun hat => h (List.mem_cons_of_mem _ hat)
    rw [List.cons_append, List.dropWhile_cons, if_pos (by simpa using hb)]
    exact ih ht

theorem at_not_mem_of_localClass (l : List Nat) (h : ∀ b ∈ l, inClass localClass b = true) :
    '@'.toNat ∉ l := by
  intro hmem
  have := h _ hmem
  revert this
  decide

theorem at_not_mem_of_domainClass (l : List Nat) (h : ∀ b ∈ l, inClass domainClass b = true) :
    '@'.toNat ∉ l := by
  intro hmem
  have := h _ hmem
  revert this
  decide

theorem domainClass_of_alphaClass (b : Nat) (h : inClass alphaClass b = true) :
    inClass domainClass b = true := by
  simp only [inClass, alphaClass, domainClass, List.any_cons, List.any_nil, Bool.or_false,
    Bool.or_eq_true, Bool.and_eq_true, decide_eq_true_eq] at h ⊢
  rcases h with h | h
  · exact Or.inl h
  · exact Or.inr (Or.inl h)

/-- What the statements after the format check compute: for an address that has
passed the length check and the format check, `find` returns the index of the
only "@" and `substr` returns the bytes after it. -/
theorem extraction_of_match (email : QString) (hlen : qLength email ≤ 255)
    (hfmt : regex_match (toStdString email) emailPattern = true) :
    ∃ l d t : List Nat, toStdString email = l ++ '@'.toNat :: (d ++ '.'.toNat :: t)
      ∧ (l ≠ [] ∧ ∀ b ∈ l, inClass localClass b = true)
      ∧ (d ≠ [] ∧ ∀ b ∈ d, inClass domainClass b = true)
      ∧ (2 ≤ t.length ∧ ∀ b ∈ t, inClass alphaClass b = true)
      ∧ stdFind (toStdString email) ['@'.toNat] = l.length
      ∧ l.length < (toStdString email).length
      ∧ stdSubstr (toStdString email)
          ((stdFind (toStdString email) ['@'.toNat] + 1) % 2 ^ 64)
          = some (d ++ '.'.toNat :: t)
      ∧ domainPart (toStdString email) = d ++ '.'.toNat :: t := by
  obtain ⟨l, d, t, hs, hl, hd, ht⟩ := (emailPattern_match_iff _).mp hfmt
  have hat : '@'.toNat ∉ l := at_not_mem_of_localClass l hl.2
  have hfind : stdFind (toStdString email) ['@'.toNat] = l.length := by
    rw [hs]
    unfold stdFind
    rw [stdFindFrom_first _ _ _ _ hat]
    omega
  have hbound := toStdString_length_le email
  have hslen : (toStdString email).length = l.length + 1 + (d ++ '.'.toNat :: t).length := by
    rw [hs]; simp only [List.length_append, List.length_cons]; omega
  refine ⟨l, d, t, hs, hl, hd, ht, hfind, by omega, ?_, ?_⟩
  · rw [hfind, Nat.mod_eq_of_lt (by omega)]
    unfold stdSubstr
    rw [if_neg (by omega), hs]
    congr 1
    rw [List.drop_append_eq_append_drop]
    simp
  · rw [hs]; exact domainPart_first _ _ hat

end UserModel

namespace UserModel

/-! ## The checks of `isValidEmail` -/

theorem isValidEmail_too_long (users : List UserRow) (dns : List Nat → DnsReply)
    (email : QString) (hlen : 255 < qLength email) :
    isValidEmail users dns email
      = some ⟨cross ++ "Email address exceeds limit (255 characters)", []⟩ := by
  simp [isValidEmail, hlen]

theorem isValidEmail_bad_format (users : List UserRow) (dns : List Nat → DnsReply)
    (email : QString) (hlen : qLength email ≤ 255)
    (hfmt : regex_match (toStdString email) emailPattern = false) :
    isValidEmail users dns email = some ⟨cross ++ "Please enter a valid email address", []⟩ := by
  have h : ¬ qLength email > 255 := by omega
  simp [isValidEmail, h, hfmt]

theorem isValidEmail_in_use (users : List UserRow) (dns : List Nat → DnsReply)
    (email : QString) (hlen : qLength email ≤ 255)
    (hfmt : regex_match (toStdString email) emailPattern = true)
    (huniq : isUniqueEmail users email = false) :
    isValidEmail users dns email = some ⟨cross ++ "Email address already in use", []⟩ := by
  have h : ¬ qLength email > 255 := by omega
  simp [isValidEmail, h, hfmt, huniq]

theorem isValidEmail_lookup (users : List UserRow) (dns : List Nat → DnsReply)
    (email : QString) (hlen : qLength email ≤ 255)
    (hfmt : regex_match (toStdString email) emailPattern = true)
    (huniq : isUniqueEmail users email = true) :
    isValidEmail users dns email
      = some ⟨if (dns (domainPart (toStdString email))).error = DnsError.NoError
                ∧ (dns (domainPart (toStdString email))).mailExchangeRecords ≠ []
              then "Valid" else cross ++ "Invalid domain. Please check email address",
              [domainPart (toStdString email)]⟩ := by
  have h : ¬ qLength email > 255 := by omega
  obtain ⟨l, d, t, -, -, -, -, -, -, hsub, hdom⟩ := extraction_of_match email hlen hfmt
  generalize d ++ '.'.toNat :: t = dom at hsub hdom
  unfold isValidEmail
  simp only [h, if_false, hfmt, Bool.not_true, Bool.false_eq_true, huniq, hsub, hdom]
  by_cases hok : (dns dom).error = DnsError.NoError ∧ (dns dom).mailExchangeRecords ≠ []
  · rw [if_pos hok]
    simp [hok.1, hok.2]
  · rw [if_neg hok]
    by_cases he : (dns dom).error = DnsError.NoError
    · have hr : (dns dom).mailExchangeRecords = [] := by
        by_contra hne
        exact hok ⟨he, hne⟩
      simp [he, hr]
    · simp [he]

theorem isUniqueEmail_eq_false_iff (users : List UserRow) (email : QString) :
    isUniqueEmail users email = false ↔ ∃ row ∈ users, row.email = email := by
  rw [← Bool.not_eq_true, isUniqueEmail_iff]
  push_neg
  rfl

end UserModel

namespace UserModel

/-- Claim C4: when the table already holds a row with the email, `isValidEmail`
returns, for every resolver, a message other than "Valid" without starting a
lookup; and when the email also has at most 255 characters and matches the
pattern, the result is the message "Email address already in use", whatever
the resolver would answer. -/
theorem isValidEmail_rejects_registered (users : List UserRow) (email : QString)
    (hreg : ∃ row ∈ users, row.email = email) :
    (∀ dns : List Nat → DnsReply, ∃ r : EmailCheck,
        isValidEmail users dns email = some r ∧ r.message ≠ "Valid" ∧ r.lookups = [])
    ∧ (qLength email ≤ 255 → regex_match (toStdString email) emailPattern = true →
        ∀ dns : List Nat → DnsReply,
          isValidEmail users dns email = some ⟨cross ++ "Email address already in use", []⟩) := by
  have huniq := (isUniqueEmail_eq_false_iff users email).mpr hreg
  refine ⟨fun dns => ?_, fun hlen hfmt dns => isValidEmail_in_use users dns email hlen hfmt huniq⟩
  by_cases hlen : 255 < qLength email
  · exact ⟨_, isValidEmail_too_long users dns email hlen, (valid_ne_cross_append _).symm, rfl⟩
  · have hlen2 : qLength email ≤ 255 := by omega
    cases hfmt : regex_match (toStdString email) emailPattern with
    | false =>
      exact ⟨_, isValidEmail_bad_format users dns email hlen2 hfmt,
        (valid_ne_cross_append _).symm, rfl⟩
    | true =>
      exact ⟨_, isValidEmail_in_use users dns email hlen2 hfmt huniq,
        (valid_ne_cross_append _).symm, rfl⟩

/-- Witness for claim C4: "a@b.co" is registered, and validating it again gives
"Email address already in use" under a resolver that would report MX records. -/
theorem isValidEmail_rejects_registered_witness :
    isValidEmail [⟨"a@b.co", "ann", hashPassword "secret12"⟩]
        (fun _ => ⟨DnsError.NoError, [⟨"mail.b.co", 10⟩]⟩) "a@b.co"
      = some ⟨cross ++ "Email address already in use", []⟩ :=
  (isValidEmail_rejects_registered [⟨"a@b.co", "ann", hashPassword "secret12"⟩] "a@b.co"
    ⟨_, List.mem_singleton.mpr rfl, rfl⟩).2 (by decide) (by decide) _

/-- Claim C5: `isValidEmail` always returns, and its message is that of the first
failing check in the order length, format, uniqueness, MX lookup. The lookup is
made for the domain part of the address only when the first three checks pass;
a lookup that ends in an error and one that ends without error and without MX
records give the same message "Invalid domain. Please check email address". The
message is "Valid" exactly when all four checks pass. -/
theorem isValidEmail_first_failing_check (users : List UserRow) (dns : List Nat → DnsReply)
    (email : QString) :
    ∃ r : EmailCheck, isValidEmail users dns email = some r
      ∧ (255 < qLength email →
          r = ⟨cross ++ "Email address exceeds limit (255 characters)", []⟩)
      ∧ (qLength email ≤ 255 → regex_match (toStdString email) emailPattern = false →
          r = ⟨cross ++ "Please enter a valid email address", []⟩)
      ∧ (qLength email ≤ 255 → regex_match (toStdString email) emailPattern = true →
          (∃ row ∈ users, row.email = email) →
          r = ⟨cross ++ "Email address already in use", []⟩)
      ∧ (qLength email ≤ 255 → regex_match (toStdString email) emailPattern = true →
          (∀ row ∈ users, row.email ≠ email) →
          r.lookups = [domainPart (toStdString email)]
          ∧ ((dns (domainPart (toStdString email))).error ≠ DnsError.NoError →
              r.message = cross ++ "Invalid domain. Please check email address")
          ∧ ((dns (domainPart (toStdString email))).error = DnsError.NoError →
              (dns (domainPart (toStdString email))).mailExchangeRecords = [] →
              r.message = cross ++ "Invalid domain. Please check email address")
          ∧ ((dns (domainPart (toStdString email))).error = DnsError.NoError →
              (dns (domainPart (toStdString email))).mailExchangeRecords ≠ [] →
              r.message = "Valid"))
      ∧ (r.message = "Valid" ↔
          qLength email ≤ 255 ∧ regex_match (toStdString email) emailPattern = true
          ∧ (∀ row ∈ users, row.email ≠ email)
          ∧ (dns (domainPart (toStdString email))).error = DnsError.NoError
          ∧ (dns (domainPart (toStdString email))).mailExchangeRecords ≠ []) := by
  by_cases hlen : 255 < qLength email
  · refine ⟨_, isValidEmail_too_long users dns email hlen, fun _ => rfl, ?_, ?_, ?_, ?_⟩
    · intro h; omega
    · intro h; omega
    · intro h; omega
    · constructor
      · intro h; exact absurd h.symm (valid_ne_cross_append _)
      · intro h; omega
  · have hlen2 : qLength email ≤ 255 := by omega
    cases hfmt : regex_match (toStdString email) emailPattern with
    | false =>
      refine ⟨_, isValidEmail_bad_format users dns email hlen2 hfmt, fun h => absurd h hlen,
        fun _ _ => rfl, ?_, ?_, ?_⟩
      · intro _ h; exact absurd h (by simp)
      · intro _ h; exact absurd h (by simp)
      · constructor
        · intro h; exact absurd h.symm (valid_ne_cross_append _)
        · intro h; exact absurd h.2.1 (by simp)
    | true =>
      cases huniq : isUniqueEmail users email with
      | false =>
        have hreg := (isUniqueEmail_eq_false_iff users email).mp huniq
        have hnot : ¬ ∀ row ∈ users, row.email ≠ email := by
          intro hall
          obtain ⟨row, hmem, hrow⟩ := hreg
          exact hall row hmem hrow
        refine ⟨_, isValidEmail_in_use users dns email hlen2 hfmt huniq, fun h => absurd h hlen,
          ?_, fun _ _ _ => rfl, ?_, ?_⟩
        · intro _ h; exact absurd h (by simp)
        · intro _ _ h; exact absurd h hnot
        · constructor
          · intro h; exact absurd h.symm (valid_ne_cross_append _)
          · intro h; exact absurd h.2.2.1 hnot
      | true =>
        have hall := (isUniqueEmail_iff users email).mp huniq
        have hnot : ¬ ∃ row ∈ users, row.email = email := by
          rintro ⟨row, hmem, hrow⟩
          exact hall row hmem hrow
        refine ⟨_, isValidEmail_lookup users dns email hlen2 hfmt huniq, fun h => absurd h hlen,
          ?_, ?_, ?_, ?_⟩
        · intro _ h; exact absurd h (by simp)
        · intro _ _ h; exact absurd h hnot
        · intro _ _ _
          refine ⟨rfl, ?_, ?_, ?_⟩
          · intro he
            show (if _ then _ else _) = _
            rw [if_neg (fun h => he h.1)]
          · intro _ hr
            show (if _ then _ else _) = _
            rw [if_neg (fun h => h.2 hr)]
          · intro he hr
            show (if _ then _ else _) = _
            rw [if_pos ⟨he, hr⟩]
        · show (if _ then _ else _) = _ ↔ _
          by_cases hok : (dns (domainPart (toStdString email))).error = DnsError.NoError
              ∧ (dns (domainPart (toStdString email))).mailExchangeRecords ≠ []
          · rw [if_pos hok]
            exact ⟨fun _ => ⟨hlen2, rfl, hall, hok⟩, fun _ => rfl⟩
          · rw [if_neg hok]
            constructor
            · intro h; exact absurd h.symm (valid_ne_cross_append _)
            · intro h; exact absurd h.2.2.2 hok

/-- Claim C6 fails on the code: addresses whose local part starts with a dot, ends
with a dot, or contains two dots in a row pass the format check, and with an
empty table and a resolver that reports an MX record they are "Valid". -/
theorem isValidEmail_accepts_dotted_local_part :
    isValidEmail [] (fun _ => ⟨DnsError.NoError, [⟨"mail.b.co", 10⟩]⟩) ".a@b.co"
        = some ⟨"Valid", [toStdString "b.co"]⟩
    ∧ isValidEmail [] (fun _ => ⟨DnsError.NoError, [⟨"mail.b.co", 10⟩]⟩) "a.@b.co"
        = some ⟨"Valid", [toStdString "b.co"]⟩
    ∧ isValidEmail [] (fun _ => ⟨DnsError.NoError, [⟨"mail.b.co", 10⟩]⟩) "a..b@b.co"
        = some ⟨"Valid", [toStdString "b.co"]⟩ := by
  refine ⟨by decide, by decide, by decide⟩

end UserModel

namespace UserModel

/-- Claim C10: for an address that reaches and passes the format check of
`isValidEmail`, the search for "@" succeeds (it does not return `npos`, and the
index it returns holds the "@"), the address contains exactly one "@", `substr`
does not throw, and the domain it returns, which is the name handed to the MX
lookup, is the part after the "@", is not empty, contains no "@", consists of
letters, digits, dots and hyphens only, and ends in a dot followed by at least
two letters. -/
theorem domain_extraction_well_formed (email : QString) (hlen : qLength email ≤ 255)
    (hfmt : regex_match (toStdString email) emailPattern = true) :
    stdFind (toStdString email) ['@'.toNat] ≠ npos
    ∧ (toStdString email).get? (stdFind (toStdString email) ['@'.toNat]) = some '@'.toNat
    ∧ (toStdString email).count '@'.toNat = 1
    ∧ ∃ domain : List Nat,
        stdSubstr (toStdString email)
            ((stdFind (toStdString email) ['@'.toNat] + 1) % 2 ^ 64) = some domain
        ∧ domain = domainPart (toStdString email)
        ∧ domain ≠ []
        ∧ '@'.toNat ∉ domain
        ∧ (∀ b ∈ domain, inClass domainClass b = true)
        ∧ (∃ d t : List Nat, domain = d ++ '.'.toNat :: t ∧ 2 ≤ t.length
            ∧ ∀ b ∈ t, inClass alphaClass b = true)
        ∧ ∀ (users : List UserRow) (dns : List Nat → DnsReply),
            isUniqueEmail users email = true →
            ∃ msg : QString, isValidEmail users dns email = some ⟨msg, [domain]⟩ := by
  obtain ⟨l, d, t, hs, hl, hd, ht, hfind, hlt, hsub, hdom⟩ := extraction_of_match email hlen hfmt
  have hbound := toStdString_length_le email
  have hatl : '@'.toNat ∉ l := at_not_mem_of_localClass l hl.2
  have hdomcls : ∀ b ∈ d ++ '.'.toNat :: t, inClass domainClass b = true := by
    intro b hb
    rcases List.mem_append.mp hb with h | h
    · exact hd.2 b h
    · rcases List.mem_cons.mp h with h | h
      · rw [h]; decide
      · exact domainClass_of_alphaClass b (ht.2 b h)
  have hatd : '@'.toNat ∉ d ++ '.'.toNat :: t := at_not_mem_of_domainClass _ hdomcls
  refine ⟨?_, ?_, ?_, d ++ '.'.toNat :: t, hsub, hdom.symm, ?_, hatd, hdomcls,
    ⟨d, t, rfl, ht.1, ht.2⟩, ?_⟩
  · rw [hfind]
    unfold npos
    omega
  · rw [hfind, hs, List.get?_eq_getElem?, List.getElem?_append_right (le_refl _)]
    simp
  · rw [hs, List.count_append, List.count_cons_self, List.count_eq_zero_of_not_mem hatl,
      List.count_eq_zero_of_not_mem hatd]
  · intro h
    exact absurd h (by simp)
  · intro users dns huniq
    rw [isValidEmail_lookup users dns email hlen hfmt huniq, hdom]
    exact ⟨_, rfl⟩

/-- Witness for claim C10: the address "a@b.co" passes both checks, and the name
handed to the lookup is "b.co". -/
theorem domain_extraction_well_formed_witness :
    stdFind (toStdString "a@b.co") ['@'.toNat] ≠ npos
    ∧ ∃ domain : List Nat,
        stdSubstr (toStdString "a@b.co")
            ((stdFind (toStdString "a@b.co") ['@'.toNat] + 1) % 2 ^ 64) = some domain
        ∧ domain = domainPart (toStdString "a@b.co") :=
  have h := domain_extraction_well_formed "a@b.co" (by decide) (by decide)
  ⟨h.1, h.2.2.2.imp fun _ hd => ⟨hd.1, hd.2.1⟩⟩

end UserModel

namespace ChordDiagram

/-! ## The invariants of the chord diagram -/

theorem nearest_mem (pos : QPointF) (grid : List QPointF) (g : QPointF)
    (h : nearest pos grid = some g) : g ∈ grid := by
  induction grid generalizing g with
  | nil => simp [nearest] at h
  | cons a t ih =>
    simp only [nearest] at h
    cases hn : nearest pos t with
    | none =>
      simp only [hn, Option.some.injEq] at h
      rw [← h]; exact List.mem_cons_self _ _
    | some best =>
      simp only [hn] at h
      split_ifs at h
      · simp only [Option.some.injEq] at h
        rw [← h]; exact List.mem_cons_self _ _
      · simp only [Option.some.injEq] at h
        rw [← h]; exact List.mem_cons_of_mem _ (ih best hn)

theorem nearest_le (pos : QPointF) (grid : List QPointF) (q : QPointF) (hq : q ∈ grid) :
    ∃ g, nearest pos grid = some g ∧ sqDist pos g ≤ sqDist pos q := by
  induction grid with
  | nil => exact absurd hq (List.not_mem_nil q)
  | cons a t ih =>
    simp only [nearest]
    cases hn : nearest pos t with
    | none =>
      cases t with
      | nil =>
        rw [List.mem_singleton.mp hq]
        exact ⟨a, rfl, le_refl _⟩
      | cons b t2 =>
        simp only [nearest] at hn
        cases hb : nearest pos t2 with
        | none => simp [hb] at hn
        | some c => simp only [hb] at hn; split_ifs at hn
    | some best =>
      rcases List.mem_cons.mp hq with h | h
      · rw [h]
        by_cases hle : sqDist pos a ≤ sqDist pos best
        · exact ⟨a, by simp [hle], le_refl _⟩
        · exact ⟨best, by simp [hle], by omega⟩
      · obtain ⟨g, hg, hgq⟩ := ih h
        rw [hn] at hg
        simp only [Option.some.injEq] at hg
        rw [← hg] at hgq
        by_cases hle : sqDist pos a ≤ sqDist pos best
        · exact ⟨a, by simp [hle], by omega⟩
        · exact ⟨best, by simp [hle], hgq⟩

/-- Grid snapping: a point within the snap threshold of some grid intersection
resolves to a grid intersection that is at least as near; in particular a grid
intersection resolves to a grid intersection at distance zero. -/
theorem snapToGrid_within_threshold (fb : Fretboard) (pos q : QPointF)
    (hq : q ∈ fb.circlePositions) (hnear : sqDist pos q ≤ (fb.snapThreshold : Int) ^ 2) :
    snapToGrid fb pos ∈ fb.circlePositions
      ∧ sqDist pos (snapToGrid fb pos) ≤ sqDist pos q := by
  obtain ⟨g, hg, hgq⟩ := nearest_le pos fb.circlePositions q hq
  have hthr : sqDist pos g ≤ (fb.snapThreshold : Int) ^ 2 := le_trans hgq hnear
  unfold snapToGrid
  simp only [hg, hthr, if_true]
  exact ⟨nearest_mem pos _ g hg, hgq⟩

theorem not_onSameString_iff (fb : Fretboard) (placed : PlacedCircles) (p : QPointF) :
    onSameString fb placed p = false ↔
      fb.getStringNum p ∉ placed.map fun m => fb.getStringNum m.1 := by
  unfold onSameString
  rw [← Bool.not_eq_true, List.any_eq_true]
  simp only [beq_iff_eq, List.mem_map, not_exists, not_and]

theorem invariant_append (fb : Fretboard) (placed : PlacedCircles) (p : QPointF) (n : Nat)
    (hnodup : (placed.map fun m => fb.getStringNum m.1).Nodup)
    (hgrid : ∀ m ∈ placed, m.1 ∈ fb.circlePositions)
    (hp : fb.circlePositions.contains p = true)
    (hfree : onSameString fb placed p = false) :
    ((placed ++ [(p, n)]).map fun m => fb.getStringNum m.1).Nodup
      ∧ ∀ m ∈ placed ++ [(p, n)], m.1 ∈ fb.circlePositions := by
  constructor
  · rw [List.map_append, List.nodup_append]
    refine ⟨hnodup, by simp, ?_⟩
    intro a ha hb
    simp only [List.map_cons, List.map_nil, List.mem_singleton] at hb
    rw [hb] at ha
    exact (not_onSameString_iff fb placed p).mp hfree ha
  · intro m hm
    rcases List.mem_append.mp hm with h | h
    · exact hgrid m h
    · rw [List.mem_singleton.mp h]
      simpa using hp

theorem invariant_filter (fb : Fretboard) (placed : PlacedCircles) (keep : QPointF × Nat → Bool)
    (hnodup : (placed.map fun m => fb.getStringNum m.1).Nodup)
    (hgrid : ∀ m ∈ placed, m.1 ∈ fb.circlePositions) :
    ((placed.filter keep).map fun m => fb.getStringNum m.1).Nodup
      ∧ ∀ m ∈ placed.filter keep, m.1 ∈ fb.circlePositions :=
  ⟨hnodup.sublist ((List.filter_sublist placed).map _),
    fun m hm => hgrid m (List.mem_of_mem_filter hm)⟩

/-- Claim C8: in every state reachable from the empty diagram through place, drag
and delete, no two placed markers lie on the same string and every placed marker
sits on one of the precomputed grid points. -/
theorem reachable_one_marker_per_string (fb : Fretboard) (placed : PlacedCircles)
    (h : Reachable fb placed) :
    (placed.map fun m => fb.getStringNum m.1).Nodup
      ∧ ∀ m ∈ placed, m.1 ∈ fb.circlePositions := by
  induction h with
  | init => exact ⟨List.nodup_nil, fun m hm => absurd hm (List.not_mem_nil m)⟩
  | place placed pos _ ih =>
    unfold place
    simp only
    split_ifs with hguard
    · simp only [Bool.and_eq_true, Bool.not_eq_true', decide_eq_true_eq] at hguard
      exact invariant_append fb placed _ _ ih.1 ih.2 hguard.1.1 hguard.1.2
    · exact ih
  | drag placed pressPos releasePos _ ih =>
    unfold drag
    simp only
    split
    · exact ih
    · split_ifs with hguard
      · simp only [Bool.and_eq_true, Bool.not_eq_true'] at hguard
        have hrest := invariant_filter fb placed
          (fun c => c.1 != snapToGrid fb pressPos) ih.1 ih.2
        exact invariant_append fb _ _ _ hrest.1 hrest.2 hguard.1 hguard.2
      · exact ih
  | delete placed pos _ ih =>
    exact invariant_filter fb placed _ ih.1 ih.2

/-- Witness for claim C8: on the sample fretboard, placing a marker near (0, 0),
a second one near (10, 10) and dragging the first one down its string is a
reachable state, with two markers on two different strings. -/
theorem reachable_one_marker_per_string_witness :
    drag sampleFretboard
        (place sampleFretboard (place sampleFretboard [] ⟨1, 1⟩) ⟨9, 11⟩) ⟨0, 0⟩ ⟨0, 9⟩
      = [(⟨10, 10⟩, 2), (⟨0, 10⟩, 1)]
    ∧ Reachable sampleFretboard [(⟨10, 10⟩, 2), (⟨0, 10⟩, 1)]
    ∧ ([(⟨10, 10⟩, 2), (⟨0, 10⟩, 1)].map
        fun m : QPointF × Nat => sampleFretboard.getStringNum m.1).Nodup :=
  have e : drag sampleFretboard
      (place sampleFretboard (place sampleFretboard [] ⟨1, 1⟩) ⟨9, 11⟩) ⟨0, 0⟩ ⟨0, 9⟩
        = [(⟨10, 10⟩, 2), (⟨0, 10⟩, 1)] := by decide
  have h : Reachable sampleFretboard [(⟨10, 10⟩, 2), (⟨0, 10⟩, 1)] :=
    e ▸ Reachable.drag _ _ _ (Reachable.place _ _ (Reachable.place _ _ Reachable.init))
  ⟨e, h, (reachable_one_marker_per_string sampleFretboard _ h).1⟩

end ChordDiagram
